import Mathlib

/-!
Verification of the klaytn weighted validator-set subsystem
(`consensus/istanbul/validator/weighted.go`) and of the per-account state
object (`blockchain/state/state_object.go`), via a shallow embedding.

Conventions of the embedding:
* 20-byte addresses and 32-byte hashes are natural numbers.
* Go pointers to validators are modelled by values; `istanbul.Validators`
  slices become `List Validator`.
* `math/rand`'s deterministic generator is abstracted as a stream
  `randStream : ℕ → ℕ → ℕ` (seed, then draw index); `Intn n` is the draw
  reduced mod `n`.  Every theorem about the shuffles holds for every stream,
  so nothing depends on the exact PRNG constants.
* Fallible code returns `Option`/pairs with an error component; `none`
  from `subListWithProposer` marks the executions in which the Go code
  either never terminates (the slot-1 `for committee[1] == nil` loop) or
  dereferences a nil validator handle.
-/

abbrev Address := Nat

/-- `weightedValidator` (weighted.go:41-47): immutable address, atomically
updated reward address and weight, constant voting power. -/
structure Validator where
  address : Address
  rewardAddress : Address
  votingPower : Nat
  weight : Nat
deriving DecidableEq, Repr

def defaultValidator : Validator := ⟨0, 0, 0, 0⟩

/-- `reward.StakingInfo` as consumed by `Refresh` (weighted.go:590-655).
Staking amounts are `uint64` in Go and are converted to `float64` before
use; the embedding carries them to `ℚ` at the use sites. -/
structure StakingInfo where
  blockNum : Nat
  councilNodeAddrs : List Address
  councilRewardAddrs : List Address
  councilStakingAmounts : List Nat
  useGini : Bool
  gini : ℚ
deriving DecidableEq, Repr

/-- `weightedCouncil` (weighted.go:95-110).  The `proposer` atomic cell is
`none` until first stored. -/
structure Council where
  subSize : Nat
  validators : List Validator
  proposer : Option Validator
  proposers : List Validator
  proposersBlockNum : Nat
  stakingInfo : Option StakingInfo
  blockNum : Nat
deriving DecidableEq, Repr

/-! ### Seed parsing (weighted.go:305-315 and 581-588)

`common.Hash.Hex()` prints all 32 bytes as 64 hex nibbles, most significant
first, behind a `0x` prefix that the code strips.  The code keeps the first
15 nibbles and feeds them to `strconv.ParseInt(_, 16, 64)`; a 15-nibble hex
literal is at most `16^15 - 1 < 2^63`, so the parse never fails and never
produces a negative value. -/

/-- The 64 hex nibbles of a 256-bit hash, most significant first. -/
def hashNibbles (h : Nat) : List Nat :=
  (List.range 64).map (fun i => h / 16 ^ (63 - i) % 16)

/-- Value of a big-endian list of hex nibbles, as `ParseInt` computes it. -/
def parseHexNibbles (ds : List Nat) : Nat :=
  ds.foldl (fun acc d => 16 * acc + d) 0

/-- The shuffle seed both `SubListWithProposer` and `Refresh` derive from a
hash: parse the first 15 hex nibbles of its hex string. -/
def seedOf (h : Nat) : Nat :=
  parseHexNibbles ((hashNibbles h).take 15)

theorem parseHexNibbles_append (ds : List Nat) (d : Nat) :
    parseHexNibbles (ds ++ [d]) = 16 * parseHexNibbles ds + d := by
  simp [parseHexNibbles, List.foldl_append]

/-- Parsing the `n` most significant nibbles of a number below `16 ^ n`
recovers the number. -/
theorem parseHexNibbles_digits (n : Nat) :
    ∀ m : Nat, m < 16 ^ n →
      parseHexNibbles ((List.range n).map (fun i => m / 16 ^ (n - 1 - i) % 16)) = m := by
  induction n with
  | zero =>
    intro m hm
    simp [parseHexNibbles]
    omega
  | succ n ih =>
    intro m hm
    rw [List.range_succ, List.map_append]
    simp only [List.map_cons, List.map_nil]
    have hlast : m / 16 ^ (n + 1 - 1 - n) % 16 = m % 16 := by
      simp
    have hpref : (List.range n).map (fun i => m / 16 ^ (n + 1 - 1 - i) % 16) =
        (List.range n).map (fun i => (m / 16) / 16 ^ (n - 1 - i) % 16) := by
      apply List.map_congr_left
      intro i hi
      have hi' : i < n := List.mem_range.mp hi
      have : 16 ^ (n + 1 - 1 - i) = 16 * 16 ^ (n - 1 - i) := by
        rw [← pow_succ']
        congr 1
        omega
      rw [this, Nat.div_div_eq_div_mul, Nat.mul_comm 16 _, ← Nat.div_div_eq_div_mul]
    have hq : m / 16 < 16 ^ n := by
      have h16 : (0:Nat) < 16 := by norm_num
      rw [Nat.div_lt_iff_lt_mul h16]
      calc m < 16 ^ (n + 1) := hm
        _ = 16 ^ n * 16 := by rw [pow_succ]
    rw [hpref, hlast, parseHexNibbles_append, ih (m / 16) hq]
    omega

/-- (C1 support) the first 15 nibbles of the hex string of `h < 2 ^ 256`
are exactly the nibbles of `h / 2 ^ 196`. -/
theorem take15_hashNibbles (h : Nat) :
    (hashNibbles h).take 15 =
      (List.range 15).map (fun i => (h / 2 ^ 196) / 16 ^ (15 - 1 - i) % 16) := by
  have hr : (List.range 64).take 15 = List.range 15 := by
    rw [List.take_range]
    norm_num
  rw [hashNibbles, ← List.map_take, hr]
  apply List.map_congr_left
  intro i hi
  have hi' : i < 15 := List.mem_range.mp hi
  have hpow : (16:Nat) ^ (63 - i) = 2 ^ 196 * 16 ^ (15 - 1 - i) := by
    have h16 : (16:Nat) = 2 ^ 4 := by norm_num
    rw [h16, ← pow_mul, ← pow_mul, ← pow_add]
    congr 1
    omega
  rw [hpow, ← Nat.div_div_eq_div_mul]

/-- Claim C1 (amended): for every 256-bit hash, the deterministic shuffle
seed used by `subListWithProposer` and `refresh` equals the HIGH 60 bits of
the hash (`h / 2 ^ 196`), i.e. the value of the first 15 hex nibbles of the
hash's hex string parsed as a (always non-negative) signed 64-bit integer. -/
theorem seedOf_eq_high_bits (h : Nat) (hh : h < 2 ^ 256) :
    seedOf h = h / 2 ^ 196 := by
  have hq : h / 2 ^ 196 < 16 ^ 15 := by
    have : (16:Nat) ^ 15 = 2 ^ 60 := by norm_num
    rw [this]
    have h2 : (0:Nat) < 2 ^ 196 := by positivity
    rw [Nat.div_lt_iff_lt_mul h2]
    calc h < 2 ^ 256 := hh
      _ = 2 ^ 60 * 2 ^ 196 := by norm_num
  rw [seedOf, take15_hashNibbles h, parseHexNibbles_digits 15 (h / 2 ^ 196) hq]

/-- Claim C1 (counterexample): at hash `1` the seed is `0`, whereas the low
60 bits of the hash are `1`; the seed is not the low 60 bits of the hash. -/
theorem seedOf_one_ne_low_bits :
    seedOf 1 = 0 ∧ 1 % 2 ^ 60 = 1 ∧ seedOf 1 ≠ 1 % 2 ^ 60 := by
  refine ⟨by decide, by norm_num, ?_⟩
  intro hcontra
  have h1 : seedOf 1 = 0 := by decide
  rw [h1] at hcontra
  norm_num at hcontra

/-- Witness for the amended C1 theorem at hash `1`. -/
theorem seedOf_eq_high_bits_witness : seedOf 1 = 1 / 2 ^ 196 :=
  seedOf_eq_high_bits 1 (by norm_num)

/-! ### Lookup and proposer selection (weighted.go:248-271, 401-468) -/

/-- `getByAddress` (weighted.go:410-417): index and validator of the first
entry with the given address; `none` models the Go return `(-1, nil)`. -/
def getByAddress : List Validator → Address → Option (Nat × Validator)
  | [], _ => none
  | v :: rest, a =>
    if a = v.address then some (0, v)
    else (getByAddress rest a).map (fun p => (p.1 + 1, p.2))

theorem getByAddress_spec {l : List Validator} {a : Address} {i : Nat} {v : Validator}
    (h : getByAddress l a = some (i, v)) :
    i < l.length ∧ l.get? i = some v ∧ v.address = a := by
  induction l generalizing i with
  | nil => simp [getByAddress] at h
  | cons w rest ih =>
    by_cases hw : a = w.address
    · simp [getByAddress, hw] at h
      obtain ⟨hi, hv⟩ := h
      subst hi; subst hv
      simp [hw]
    · rw [getByAddress, if_neg hw] at h
      rcases hrec : getByAddress rest a with _ | p
      · rw [hrec] at h
        simp at h
      · rw [hrec] at h
        simp only [Option.map_some', Option.some.injEq, Prod.mk.injEq] at h
        obtain ⟨hj, hu⟩ := h
        subst hu
        obtain ⟨h1, h2, h3⟩ := ih (i := p.1) (by rw [hrec])
        refine ⟨by simp; omega, ?_, h3⟩
        rw [← hj]
        simpa using h2

theorem getByAddress_mem {l : List Validator} {a : Address} {i : Nat} {v : Validator}
    (h : getByAddress l a = some (i, v)) : v ∈ l := by
  obtain ⟨_, h2, _⟩ := getByAddress_spec h
  exact List.get?_mem h2

/-- Modelled from the spec: `params.CalcProposerBlockNumber` is not among the
given sources; the spec describes it as the largest multiple of the proposer
update interval not exceeding `n - 1`. -/
def proposerUpdateInterval : Nat := 3600

def calcProposerBlockNumber (n : Nat) : Nat :=
  (n - 1) / proposerUpdateInterval * proposerUpdateInterval

/-- Go `uint64` arithmetic. -/
def u64 : Nat := 2 ^ 64

def wadd (a b : Nat) : Nat := (a + b) % u64

def wsub (a b : Nat) : Nat := (a % u64 + (u64 - b % u64)) % u64

/-- `weightedRandomProposer` (weighted.go:248-271): round-robin over the
already-shuffled `proposers`; `none` models the nil returned on an empty
proposer list.  `lastProposer` is accepted but unused, as in the source. -/
def weightedRandomProposer (c : Council) (_lastProposer : Address) (round : Nat) :
    Option Validator :=
  if c.proposers.length = 0 then none
  else
    let picker := wsub (wadd c.blockNum round)
        (calcProposerBlockNumber (c.blockNum + 1)) % c.proposers.length
    some (c.proposers.getD picker defaultValidator)

theorem weightedRandomProposer_mem {c : Council} {a : Address} {round : Nat}
    {v : Validator} (h : weightedRandomProposer c a round = some v) :
    v ∈ c.proposers := by
  by_cases h0 : c.proposers.length = 0
  · simp [weightedRandomProposer, h0] at h
  · simp only [weightedRandomProposer, h0, if_false, Option.some.injEq] at h
    subst h
    have hlt : wsub (wadd c.blockNum round)
        (calcProposerBlockNumber (c.blockNum + 1)) % c.proposers.length <
        c.proposers.length := Nat.mod_lt _ (Nat.pos_of_ne_zero h0)
    rw [List.getD_eq_getElem _ _ hlt]
    exact List.getElem_mem hlt

/-- `emptyAddress` as used at weighted.go:437: the all-zero address. -/
def emptyAddress (a : Address) : Bool := a = 0

/-- `chooseProposerByRoundRobin` (weighted.go:435-448).  Reached only with a
non-empty validator list. -/
def chooseProposerByRoundRobin (c : Council) (lastProposer : Address) (round : Nat) :
    Validator :=
  let seed :=
    if emptyAddress lastProposer then round
    else
      (match getByAddress c.validators lastProposer with
       | some (idx, _) => idx
       | none => 0) + round
  c.validators.getD (seed % c.validators.length) defaultValidator

/-- `CalcProposer` (weighted.go:450-468): select a new proposer and store it
in the atomic `proposer` cell; on a nil selector result fall back to a
synthetic validator (empty set) or to round robin. -/
def calcProposer (c : Council) (lastProposer : Address) (round : Nat) : Council :=
  let newProposer :=
    match weightedRandomProposer c lastProposer round with
    | some p => p
    | none =>
      if c.validators.length = 0 then ⟨lastProposer, 0, 0, 0⟩
      else chooseProposerByRoundRobin c lastProposer round
  { c with proposer := some newProposer }

/-- Claim C7: `calcProposer` is idempotent — running it twice with the same
`(lastProposer, round)` leaves the stored proposer (and the whole council)
exactly as after one run, for every council. -/
theorem calcProposer_idempotent (c : Council) (lastProposer : Address) (round : Nat) :
    calcProposer (calcProposer c lastProposer round) lastProposer round =
      calcProposer c lastProposer round := by
  rfl

/-! ### Seeded shuffle (weighted.go:358-373 and 728-743)

Both shuffles run `for i := 0; i < limit; i++ { swap(indexs[i],
indexs[picker.Intn(limit)]) }` over a list of indices.  The generator draws
are abstracted as a stream `rand : ℕ → ℕ`; `Intn n` keeps a draw in range
by reduction mod `n`, which is all any property below uses. -/

def intn (rand : Nat → Nat) (i n : Nat) : Nat := rand i % n

/-- The parallel assignment `l[i], l[j] = l[j], l[i]`. -/
def swapL (l : List Nat) (i j : Nat) : List Nat :=
  (l.set i (l.getD j 0)).set j (l.getD i 0)

theorem length_swapL (l : List Nat) (i j : Nat) : (swapL l i j).length = l.length := by
  simp [swapL]

theorem swapL_perm (l : List Nat) (i j : Nat) (hi : i < l.length) (hj : j < l.length) :
    (swapL l i j).Perm l := by
  rw [List.perm_iff_count]
  intro b
  have hj' : j < (l.set i (l.getD j 0)).length := by simpa using hj
  rw [swapL, List.count_set _ _ _ _ hj', List.count_set _ _ _ _ hi]
  have hset : (l.set i (l.getD j 0))[j] = l.getD j 0 := by
    rw [List.getElem_set]
    by_cases hij : i = j
    · simp [hij]
    · rw [if_neg hij]
      exact (List.getD_eq_getElem _ _ hj).symm
  rw [hset, List.getD_eq_getElem _ _ hj, List.getD_eq_getElem _ _ hi]
  have hcx : (if (l[i] == b) = true then 1 else 0) ≤ List.count b l := by
    by_cases hc : (l[i] == b) = true
    · rw [if_pos hc]
      have : b ∈ l := by
        have := List.getElem_mem hi
        rwa [eq_of_beq hc] at this
      exact List.count_pos_iff.mpr this
    · simp [hc]
  omega

/-- The Fisher-Yates-style pass: swap slot `i` with a drawn slot, for
`i = 0 .. k-1`. -/
def shuffleList (rand : Nat → Nat) (k : Nat) (l : List Nat) : List Nat :=
  (List.range k).foldl (fun acc i => swapL acc i (intn rand i k)) l

theorem shuffleList_perm (rand : Nat → Nat) (k : Nat) (l : List Nat)
    (hk : k ≤ l.length) : (shuffleList rand k l).Perm l := by
  rw [shuffleList]
  have main : ∀ (is : List Nat) (acc : List Nat), acc.length = l.length →
      (∀ i ∈ is, i < k) →
      (is.foldl (fun acc i => swapL acc i (intn rand i k)) acc).Perm acc := by
    intro is
    induction is with
    | nil => intro acc _ _; simp
    | cons i rest ih =>
      intro acc hlen hmem
      have hik : i < k := hmem i (List.mem_cons_self i rest)
      have hkpos : 0 < k := Nat.lt_of_le_of_lt (Nat.zero_le i) hik
      have hi : i < acc.length := by omega
      have hj : intn rand i k < acc.length := by
        have : intn rand i k < k := Nat.mod_lt _ hkpos
        omega
      have hswap := swapL_perm acc i (intn rand i k) hi hj
      have hlen' : (swapL acc i (intn rand i k)).length = l.length := by
        rw [length_swapL]; exact hlen
      have hrec := ih (swapL acc i (intn rand i k)) hlen'
        (fun x hx => hmem x (List.mem_cons_of_mem i hx))
      exact (List.foldl_cons _ _ ▸ hrec).trans hswap
  exact main (List.range k) l rfl (fun i hi => List.mem_range.mp hi)

/-! ### Committee derivation (weighted.go:297-385) -/

/-- The slot-1 search `for committee[1] == nil { nextProposer :=
valSet.selector(...); ... nextProposerIdx += 1 }` (weighted.go:330-338).
The selector is a round robin over `proposers`, so the loop body is
periodic in `nextProposerIdx` with period `len(proposers)`: the unbounded
Go loop terminates exactly when one period contains a proposer with a
distinct address, and it picks the first such entry.  `none` models the
two divergent executions: an empty proposer list (the selector returns nil
and the loop body dereferences it) and a period with no distinct address
(the loop never terminates). -/
def findNextProposer (c : Council) (pAddr : Address) (round : Nat) : Option Validator :=
  (List.range c.proposers.length).findSome? (fun j =>
    match weightedRandomProposer c pAddr (wadd round (j + 1)) with
    | none => none
    | some v => if v.address ≠ pAddr then some v else none)

theorem findNextProposer_spec {c : Council} {pAddr : Address} {round : Nat}
    {v : Validator} (h : findNextProposer c pAddr round = some v) :
    v.address ≠ pAddr ∧ v ∈ c.proposers := by
  rw [findNextProposer, List.findSome?_eq_some_iff] at h
  obtain ⟨l₁, j, l₂, _, hj, _⟩ := h
  rcases hw : weightedRandomProposer c pAddr (wadd round (j + 1)) with _ | w
  · rw [hw] at hj; simp at hj
  · rw [hw] at hj
    by_cases haddr : w.address ≠ pAddr
    · simp only [if_pos haddr, Option.some.injEq] at hj
      subst hj
      exact ⟨haddr, weightedRandomProposer_mem hw⟩
    · simp [haddr] at hj

theorem findNextProposer_eq_none {c : Council} {pAddr : Address} {round : Nat}
    (hall : ∀ v ∈ c.proposers, v.address = pAddr) :
    findNextProposer c pAddr round = none := by
  rw [findNextProposer, List.findSome?_eq_none_iff]
  intro j _
  rcases hw : weightedRandomProposer c pAddr (wadd round (j + 1)) with _ | w
  · rfl
  · have := hall w (weightedRandomProposer_mem hw)
    simp [this]

/-- `SubListWithProposer` (weighted.go:297-385).  Returns `none` exactly
when the Go code diverges (see `findNextProposer`) or panics: the latter
happens when the found next proposer's address is absent from `validators`,
because then `nextproposerIdx = -1`, the index-collection loop at
weighted.go:363-369 produces `limit - 1` candidates for an array of size
`limit - 2`, and the write `indexs[idx] = i` runs out of bounds.  The
15-nibble seed parse cannot fail (see `seedOf`), so that error branch is
dead.  When both the proposer and the next proposer are found their indices
differ (their addresses differ), so `indexs` always holds exactly
`limit - 2` entries, as in Go. -/
def subListWithProposer (randStream : Nat → Nat → Nat) (c : Council)
    (prevHash : Nat) (proposer : Address) (round : Nat) : Option (List Validator) :=
  if c.validators.length ≤ c.subSize then some c.validators
  else
    let seed := seedOf prevHash
    match getByAddress c.validators proposer with
    | none => some c.validators
    | some (pIdx, pVal) =>
      if c.subSize = 1 then some [pVal]
      else
        match findNextProposer c pVal.address round with
        | none => none
        | some nextVal =>
          match getByAddress c.validators nextVal.address with
          | none => none
          | some (nIdx, _) =>
            let limit := c.validators.length
            let pickSize := limit - 2
            let indexs := (List.range limit).filter (fun i => i != pIdx && i != nIdx)
            let shuffled := shuffleList (randStream seed) pickSize indexs
            some (pVal :: nextVal ::
              (List.range (c.subSize - 2)).map
                (fun i => c.validators.getD (shuffled.getD i 0) defaultValidator))

theorem address_inj {l : List Validator} (h : (l.map Validator.address).Nodup)
    {i j : Nat} (hi : i < l.length) (hj : j < l.length)
    (heq : (l.get ⟨i, hi⟩).address = (l.get ⟨j, hj⟩).address) : i = j := by
  have hi' : i < (l.map Validator.address).length := by simpa
  have hj' : j < (l.map Validator.address).length := by simpa
  refine (@List.Nodup.getElem_inj_iff _ _ h i hi' j hj').mp ?_
  simpa [List.getElem_map] using heq

theorem length_filter_two_ne {n pIdx nIdx : Nat} (hp : pIdx < n) (hn : nIdx < n)
    (hne : pIdx ≠ nIdx) :
    ((List.range n).filter (fun i => i != pIdx && i != nIdx)).length = n - 2 := by
  have h1 : (List.range n).filter (fun i => i != pIdx && i != nIdx)
      = ((List.range n).erase pIdx).erase nIdx := by
    rw [(List.nodup_range n).erase_eq_filter pIdx,
      (List.Nodup.filter _ (List.nodup_range n)).erase_eq_filter nIdx,
      List.filter_filter]
    apply List.filter_congr
    intro a _
    rw [Bool.and_comm]
  have e1 : pIdx ∈ List.range n := List.mem_range.mpr hp
  have e2 : nIdx ∈ (List.range n).erase pIdx :=
    ((List.nodup_range n).mem_erase_iff).mpr ⟨hne.symm, List.mem_range.mpr hn⟩
  have l1 := List.length_erase_add_one e1
  have l2 := List.length_erase_add_one e2
  rw [h1]
  simp only [List.length_range] at l1
  omega

theorem get?_getElem {l : List Validator} {i : Nat} {v : Validator}
    (h : l.get? i = some v) (hi : i < l.length) : l.get ⟨i, hi⟩ = v := by
  rw [List.get?_eq_get hi] at h
  exact Option.some.inj h

/-- Claim C2 (amended): with a strictly larger council than the committee
size (`subSize < size`), a committee size of at least two, a proposer that
is a member, and a slot-1 search that finds a next proposer whose address is
itself present in the validator list, `subListWithProposer` returns a
committee of exactly `subSize` validators with pairwise-distinct addresses,
whose slot 0 is the proposer's validator and whose slot 1 has a different
address.  (At `subSize = size` the code instead returns the full
address-sorted validator list, whose first element need not be the
proposer — see the counterexample.) -/
theorem subListWithProposer_committee (randStream : Nat → Nat → Nat) (c : Council)
    (prevHash : Nat) (p : Address) (round : Nat)
    (pIdx : Nat) (pVal : Validator) (nv : Validator) (nIdx : Nat) (nVal : Validator)
    (hnodup : (c.validators.map Validator.address).Nodup)
    (h2 : 2 ≤ c.subSize) (hlt : c.subSize < c.validators.length)
    (hfp : getByAddress c.validators p = some (pIdx, pVal))
    (hnext : findNextProposer c p round = some nv)
    (hfn : getByAddress c.validators nv.address = some (nIdx, nVal)) :
    ∃ committee, subListWithProposer randStream c prevHash p round = some committee ∧
      committee.length = c.subSize ∧
      (committee.map Validator.address).Nodup ∧
      committee.head? = some pVal ∧ pVal.address = p ∧
      committee.get? 1 = some nv ∧ nv.address ≠ p := by
  obtain ⟨hpIdx, hpget, hpaddr⟩ := getByAddress_spec hfp
  have hnext' : findNextProposer c pVal.address round = some nv := by
    rw [hpaddr]; exact hnext
  obtain ⟨hnvaddr0, hnvmem⟩ := findNextProposer_spec hnext'
  have hnvaddr : nv.address ≠ p := by rwa [hpaddr] at hnvaddr0
  obtain ⟨hnIdx, hnget, hnaddr⟩ := getByAddress_spec hfn
  have hpelem : c.validators.get ⟨pIdx, hpIdx⟩ = pVal := get?_getElem hpget hpIdx
  have hnelem : c.validators.get ⟨nIdx, hnIdx⟩ = nVal := get?_getElem hnget hnIdx
  have hpn : pIdx ≠ nIdx := by
    intro hh
    apply hnvaddr
    rw [hh] at hpget
    have : pVal = nVal := Option.some.inj (hpget.symm.trans hnget)
    rw [← hnaddr, ← this, hpaddr]
  set limit := c.validators.length with hlimit
  set seed := seedOf prevHash with hseed
  set indexs := (List.range limit).filter (fun i => i != pIdx && i != nIdx) with hindexs
  set shuffled := shuffleList (randStream seed) (limit - 2) indexs with hshuffled
  set tail := (List.range (c.subSize - 2)).map
      (fun i => c.validators.getD (shuffled.getD i 0) defaultValidator) with htail
  have hlen_indexs : indexs.length = limit - 2 :=
    length_filter_two_ne hpIdx hnIdx hpn
  have hperm : shuffled.Perm indexs :=
    shuffleList_perm (randStream seed) (limit - 2) indexs (by omega)
  have hlen_sh : shuffled.length = limit - 2 := by
    rw [hperm.length_eq, hlen_indexs]
  have hnodup_sh : shuffled.Nodup :=
    (hperm.nodup_iff).mpr (List.Nodup.filter _ (List.nodup_range limit))
  have hmem_sh : ∀ x ∈ shuffled, x < limit ∧ x ≠ pIdx ∧ x ≠ nIdx := by
    intro x hx
    have hx' : x ∈ indexs := (hperm.mem_iff).mp hx
    rw [hindexs, List.mem_filter] at hx'
    obtain ⟨hxr, hxb⟩ := hx'
    simp only [Bool.and_eq_true, bne_iff_ne, ne_eq] at hxb
    exact ⟨List.mem_range.mp hxr, hxb.1, hxb.2⟩
  have hresult : subListWithProposer randStream c prevHash p round =
      some (pVal :: nv :: tail) := by
    rw [subListWithProposer, if_neg (by omega : ¬ c.validators.length ≤ c.subSize), hfp]
    simp only
    rw [if_neg (by omega : ¬ c.subSize = 1), hpaddr, hnext]
    simp only
    rw [hfn]
  have htail_bound : ∀ i, i < c.subSize - 2 → i < shuffled.length := by
    intro i hi
    omega
  have htail_get : ∀ i (hi : i < c.subSize - 2),
      ∃ hx : shuffled.getD i 0 < limit,
        (c.validators.getD (shuffled.getD i 0) defaultValidator =
          c.validators.get ⟨shuffled.getD i 0, hx⟩) ∧
        shuffled.getD i 0 ≠ pIdx ∧ shuffled.getD i 0 ≠ nIdx := by
    intro i hi
    have hilt : i < shuffled.length := htail_bound i hi
    have hmem : shuffled.getD i 0 ∈ shuffled := by
      rw [List.getD_eq_getElem _ _ hilt]
      exact List.getElem_mem hilt
    obtain ⟨hx, hxp, hxn⟩ := hmem_sh _ hmem
    exact ⟨hx, List.getD_eq_getElem _ _ hx, hxp, hxn⟩
  have htail_addrs : ∀ i (hi : i < c.subSize - 2) (a : Address),
      (c.validators.getD (shuffled.getD i 0) defaultValidator).address = a →
      ∀ k (hk : k < limit), a = (c.validators.get ⟨k, hk⟩).address →
      shuffled.getD i 0 = k := by
    intro i hi a hia k hk hka
    obtain ⟨hx, hxeq, _, _⟩ := htail_get i hi
    apply address_inj hnodup hx hk
    rw [← hxeq, hia, hka]
  refine ⟨pVal :: nv :: tail, hresult, ?_, ?_, rfl, hpaddr, rfl, hnvaddr⟩
  · simp [htail]
    omega
  · rw [List.map_cons, List.map_cons, List.nodup_cons, List.nodup_cons]
    refine ⟨?_, ?_, ?_⟩
    · intro hmem
      rcases List.mem_cons.mp hmem with heq | hmem'
      · rw [hpaddr] at heq
        exact hnvaddr heq.symm
      · rw [htail, List.map_map] at hmem'
        obtain ⟨i, hir, hieq⟩ := List.mem_map.mp hmem'
        have hi : i < c.subSize - 2 := List.mem_range.mp hir
        have := htail_addrs i hi _ hieq pIdx hpIdx (by rw [hpelem, hpaddr])
        obtain ⟨_, _, hxp, _⟩ := htail_get i hi
        exact hxp this
    · intro hmem'
      rw [htail, List.map_map] at hmem'
      obtain ⟨i, hir, hieq⟩ := List.mem_map.mp hmem'
      have hi : i < c.subSize - 2 := List.mem_range.mp hir
      have := htail_addrs i hi _ hieq nIdx hnIdx (by rw [hnelem, hnaddr])
      obtain ⟨_, _, _, hxn⟩ := htail_get i hi
      exact hxn this
    · rw [htail, List.map_map]
      apply List.Nodup.map_on _ (List.nodup_range _)
      intro x hx y hy hxy
      have hx' : x < c.subSize - 2 := List.mem_range.mp hx
      have hy' : y < c.subSize - 2 := List.mem_range.mp hy
      obtain ⟨hxb, hxeq, _, _⟩ := htail_get x hx'
      obtain ⟨hyb, hyeq, _, _⟩ := htail_get y hy'
      have hidx : shuffled.getD x 0 = shuffled.getD y 0 := by
        apply address_inj hnodup hxb hyb
        rw [← hxeq, ← hyeq]
        exact hxy
      have hxl : x < shuffled.length := htail_bound x hx'
      have hyl : y < shuffled.length := htail_bound y hy'
      rw [List.getD_eq_getElem _ _ hxl, List.getD_eq_getElem _ _ hyl] at hidx
      exact (hnodup_sh.getElem_inj_iff).mp hidx

/-! ### Concrete councils for the committee-derivation claims -/

def mkVal (a : Address) : Validator := ⟨a, 0, 1000, 0⟩

/-- Two validators, committee size equal to the council size. -/
def c2ex : Council :=
  { subSize := 2
    validators := [mkVal 1, mkVal 2]
    proposer := some (mkVal 1)
    proposers := [mkVal 1, mkVal 2]
    proposersBlockNum := 0
    stakingInfo := none
    blockNum := 0 }

/-- Claim C2 (counterexample): in `c2ex` the committee size `k = subSize = 2`
satisfies `k ≤ size`, the proposer address `2` belongs to the set, and the
selector can produce a distinct next proposer, yet `subListWithProposer`
returns the full sorted validator list whose FIRST element has address `1`,
not the proposer's address `2`. -/
theorem subList_first_not_proposer :
    c2ex.subSize ≤ c2ex.validators.length ∧
    (∃ v ∈ c2ex.validators, v.address = 2) ∧
    subListWithProposer (fun _ _ => 0) c2ex 7 2 0 = some [mkVal 1, mkVal 2] ∧
    (mkVal 1).address ≠ 2 := by
  refine ⟨by decide, ⟨mkVal 2, by decide, by decide⟩, ?_, by decide⟩
  rw [subListWithProposer, if_pos (by decide)]
  rfl

/-- Four validators, committee size three: a strict sub-committee. -/
def c2w : Council :=
  { subSize := 3
    validators := [mkVal 1, mkVal 2, mkVal 3, mkVal 4]
    proposer := some (mkVal 1)
    proposers := [mkVal 1, mkVal 2, mkVal 3, mkVal 4]
    proposersBlockNum := 0
    stakingInfo := none
    blockNum := 0 }

/-- Witness for the amended C2 theorem on `c2w` with proposer address `1`. -/
theorem subListWithProposer_committee_witness :
    ∃ committee, subListWithProposer (fun _ _ => 0) c2w 7 1 0 = some committee ∧
      committee.length = c2w.subSize ∧
      (committee.map Validator.address).Nodup ∧
      committee.head? = some (mkVal 1) ∧ (mkVal 1).address = 1 ∧
      committee.get? 1 = some (mkVal 2) ∧ (mkVal 2).address ≠ 1 :=
  subListWithProposer_committee (fun _ _ => 0) c2w 7 1 0 0 (mkVal 1) (mkVal 2) 1 (mkVal 2)
    (by decide) (by decide) (by decide) (by decide) (by decide) (by decide)

/-- Claim C5 (amended): when every entry of `proposers` carries the given
proposer's address (with a proposer that is a member, a committee size of at
least 2 and a strictly larger council), the slot-1 loop of
`SubListWithProposer` never finds a distinct address and never terminates
(an empty proposer list makes the selector return nil, which the loop body
then dereferences); no committee is produced, modelled as `none`. -/
theorem subListWithProposer_exhausted (randStream : Nat → Nat → Nat) (c : Council)
    (prevHash : Nat) (p : Address) (round : Nat) (pIdx : Nat) (pVal : Validator)
    (h2 : 2 ≤ c.subSize) (hlt : c.subSize < c.validators.length)
    (hfp : getByAddress c.validators p = some (pIdx, pVal))
    (hall : ∀ v ∈ c.proposers, v.address = p) :
    subListWithProposer randStream c prevHash p round = none := by
  have hpaddr : pVal.address = p := (getByAddress_spec hfp).2.2
  rw [subListWithProposer, if_neg (by omega : ¬ c.validators.length ≤ c.subSize), hfp]
  simp only
  rw [if_neg (by omega : ¬ c.subSize = 1), hpaddr, findNextProposer_eq_none hall]

/-- Three validators but a proposer sequence whose entries all bear the
proposer's address `1`. -/
def c5ex : Council :=
  { subSize := 2
    validators := [mkVal 1, mkVal 2, mkVal 3]
    proposer := some (mkVal 1)
    proposers := [mkVal 1]
    proposersBlockNum := 0
    stakingInfo := none
    blockNum := 0 }

/-- Claim C5 (counterexample): on `c5ex` every proposer entry has the given
proposer's address, and the call produces NO committee — the slot-1 loop
(`for committee[1] == nil`) spins forever, it does not "log and proceed
with a duplicate" as claimed. -/
theorem subList_exhausted_no_committee :
    (∀ v ∈ c5ex.proposers, v.address = 1) ∧
    subListWithProposer (fun _ _ => 0) c5ex 9 1 0 = none := by
  exact ⟨by decide, by decide⟩

/-- Witness for the amended C5 theorem on `c5ex` at a different hash. -/
theorem subListWithProposer_exhausted_witness :
    subListWithProposer (fun _ _ => 0) c5ex 11 1 0 = none :=
  subListWithProposer_exhausted (fun _ _ => 0) c5ex 11 1 0 0 (mkVal 1)
    (by decide) (by decide) (by decide) (by decide)

/-! ### Membership mutations (weighted.go:470-521) -/

/-- `sort.Sort(valSet.validators)` with the `Less` that compares validator
address strings: fixed-width hex strings compare like the numeric
addresses. -/
def sortValidators (l : List Validator) : List Validator :=
  l.insertionSort (fun a b => a.address ≤ b.address)

/-- `AddValidator` (weighted.go:470-485): reject a duplicate address,
otherwise append a fresh validator `(reward=0, votingPower=1000, weight=0)`
and re-sort.  `proposers` is untouched. -/
def addValidator (c : Council) (address : Address) : Council × Bool :=
  if c.validators.any (fun v => v.address = address) then (c, false)
  else ({ c with validators := sortValidators (c.validators ++ [⟨address, 0, 1000, 0⟩]) },
        true)

/-- The loop of `RemoveValidator` (weighted.go:504-510): drop the first
validator with the given address, `none` when no entry matches. -/
def removeFirstByAddr : List Validator → Address → Option (List Validator)
  | [], _ => none
  | v :: rest, a =>
    if v.address = a then some rest
    else (removeFirstByAddr rest a).map (v :: ·)

/-- `removeValidatorFromProposers` (weighted.go:488-498): keep the proposers
whose address differs. -/
def removeValidatorFromProposers (proposers : List Validator) (address : Address) :
    List Validator :=
  proposers.filter (fun v => v.address != address)

/-- `RemoveValidator` (weighted.go:500-512). -/
def removeValidator (c : Council) (address : Address) : Council × Bool :=
  match removeFirstByAddr c.validators address with
  | none => (c, false)
  | some vs =>
    ({ c with validators := vs,
              proposers := removeValidatorFromProposers c.proposers address }, true)

/-- `ReplaceValidators` (weighted.go:514-521): overwrite the validator list;
`proposers` is not touched. -/
def replaceValidators (c : Council) (vals : List Validator) : Council × Bool :=
  ({ c with validators := vals }, true)

/-- Invariant 3 of the spec: every proposer-sequence entry is a member of
the validator list. -/
def proposersSubset (c : Council) : Prop :=
  ∀ v ∈ c.proposers, v ∈ c.validators

instance (c : Council) : Decidable (proposersSubset c) := by
  unfold proposersSubset
  infer_instance

theorem removeFirstByAddr_mem {l : List Validator} {a : Address} {vs : List Validator}
    (h : removeFirstByAddr l a = some vs) :
    ∀ x ∈ l, x.address ≠ a → x ∈ vs := by
  induction l generalizing vs with
  | nil => simp [removeFirstByAddr] at h
  | cons v rest ih =>
    by_cases hv : v.address = a
    · rw [removeFirstByAddr, if_pos hv] at h
      obtain rfl : rest = vs := Option.some.inj h
      intro x hx hxa
      rcases List.mem_cons.mp hx with rfl | hx'
      · exact absurd hv hxa
      · exact hx'
    · rw [removeFirstByAddr, if_neg hv] at h
      rcases hrec : removeFirstByAddr rest a with _ | vs'
      · rw [hrec] at h; simp at h
      · rw [hrec] at h
        simp only [Option.map_some', Option.some.injEq] at h
        subst h
        intro x hx hxa
        rcases List.mem_cons.mp hx with rfl | hx'
        · exact List.mem_cons_self _ _
        · exact List.mem_cons_of_mem _ (ih hrec x hx' hxa)

/-! ### Refresh (weighted.go:559-747)

The staking-amount arithmetic is `float64` in Go; the embedding carries the
amounts in `ℚ` (exact for the `uint64` staking values that occur).  Two
pieces of the pipeline live outside the given sources and do genuinely
non-algebraic floating-point work, so they are taken as parameters that the
theorems quantify over:
* `calcGini`, standing for `reward.CalcGiniCoefficient`;
* `compress`, standing for `math.Round(math.Pow(x, 1.0/(1+gini)))`
  (weighted.go:675). -/

/-- `stakingInfo.GetIndexByNodeAddress` (reward package, outside the given
sources): index of the first staking entry with the node's address. -/
def getIndexByNodeAddress (si : StakingInfo) (a : Address) : Option Nat :=
  si.councilNodeAddrs.findIdx? (fun x => x = a)

/-- First pass of `getStakingAmountsOfValidators` (weighted.go:623-639):
for each validator either adopt the staking entry's reward address and
amount, or clear the reward address and record `0`. -/
def stakingPass1 (validators : List Validator) (si : StakingInfo) :
    List (Validator × ℚ) :=
  validators.map (fun v =>
    match getIndexByNodeAddress si v.address with
    | some s => ({ v with rewardAddress := si.councilRewardAddrs.getD s 0 },
                 (si.councilStakingAmounts.getD s 0 : ℚ))
    | none => ({ v with rewardAddress := 0 }, 0))

/-- `addedStaking[s]` after the first pass: some validator claimed staking
entry `s`. -/
def stakingAdded (validators : List Validator) (si : StakingInfo) (s : Nat) : Bool :=
  validators.any (fun v => getIndexByNodeAddress si v.address = some s)

/-- Second pass (weighted.go:641-651): fold an unclaimed staking entry into
the first validator sharing its reward address (`break` after one hit). -/
def addToFirstMatching (pairs : List (Validator × ℚ)) (rewardAddr : Address)
    (amount : ℚ) : List (Validator × ℚ) :=
  match pairs with
  | [] => []
  | (v, amt) :: rest =>
    if v.rewardAddress = rewardAddr then (v, amt + amount) :: rest
    else (v, amt) :: addToFirstMatching rest rewardAddr amount

/-- `getStakingAmountsOfValidators` (weighted.go:617-655).  The
`not weightedValidator` error branch is dead here: every entry is a
`weightedValidator`. -/
def getStakingAmountsOfValidators (validators : List Validator) (si : StakingInfo) :
    List (Validator × ℚ) :=
  (List.range si.councilNodeAddrs.length).foldl
    (fun ps s =>
      if stakingAdded validators si s then ps
      else addToFirstMatching ps (si.councilRewardAddrs.getD s 0)
        (si.councilStakingAmounts.getD s 0 : ℚ))
    (stakingPass1 validators si)

/-- `calcTotalAmount` (weighted.go:659-686), returning the updated pairs,
the staking info with its (possibly recomputed) Gini coefficient, and the
total. -/
def calcTotalAmount (calcGini : List ℚ → ℚ) (compress : ℚ → ℚ → ℚ)
    (pairs : List (Validator × ℚ)) (si : StakingInfo) :
    List (Validator × ℚ) × StakingInfo × ℚ :=
  if si.councilNodeAddrs.length = 0 then (pairs, si, 0)
  else if si.useGini then
    let temp := (pairs.filter
      (fun p => (getIndexByNodeAddress si p.1.address).isSome)).map (·.2)
    let gini := calcGini temp
    let pairs' := pairs.map (fun p => (p.1, compress p.2 gini))
    (pairs', { si with gini := gini }, (pairs'.map (·.2)).sum)
  else (pairs, si, (pairs.map (·.2)).sum)

/-- `math.Round`: round half away from zero, exact on `ℚ`. -/
def goRound (q : ℚ) : ℤ :=
  if q < 0 then -(⌊-q + 1/2⌋) else ⌊q + 1/2⌋

/-- `calcWeight` (weighted.go:689-708).  The `uint64(math.Round(..))`
conversion is modelled by `Int.toNat`, exact for the non-negative amounts
that occur; `weight <= 0` on a `uint64` means `weight == 0`. -/
def calcWeight (pairs : List (Validator × ℚ)) (totalStaking : ℚ) : List Validator :=
  if 0 < totalStaking then
    pairs.map (fun p =>
      let weight := (goRound (p.2 * 100 / totalStaking)).toNat
      { p.1 with weight := if weight = 0 then 1 else weight })
  else
    pairs.map (fun p => { p.1 with weight := 0 })

/-- The `candidateValsIdx` slice of `refreshProposers` (weighted.go:711-726):
each validator index repeated `weight` times, or every index once when all
weights are zero. -/
def candidateIdx (validators : List Validator) : List Nat :=
  let candidate0 := ((List.range validators.length).map
    (fun i => List.replicate (validators.getD i defaultValidator).weight i)).flatten
  if candidate0.length = 0 then List.range validators.length else candidate0

theorem candidateIdx_lt (validators : List Validator) :
    ∀ x ∈ candidateIdx validators, x < validators.length := by
  intro x hx
  rw [candidateIdx] at hx
  by_cases h0 : (((List.range validators.length).map
      (fun i => List.replicate (validators.getD i defaultValidator).weight i)).flatten).length = 0
  · rw [if_pos h0] at hx
    exact List.mem_range.mp hx
  · rw [if_neg h0] at hx
    obtain ⟨l, hl, hxl⟩ := List.mem_flatten.mp hx
    obtain ⟨j, hj, rfl⟩ := List.mem_map.mp hl
    have := List.eq_of_mem_replicate hxl
    subst this
    exact List.mem_range.mp hj

/-- `refreshProposers` (weighted.go:710-747): shuffle the candidate index
multiset with the seeded stream and materialise the new proposer sequence;
record `blockNum` as `proposersBlockNum`. -/
def refreshProposers (randStream : Nat → Nat → Nat) (c : Council) (seed : Nat)
    (blockNum : Nat) : Council :=
  let shuffled := shuffleList (randStream seed) (candidateIdx c.validators).length
    (candidateIdx c.validators)
  { c with proposers := shuffled.map (fun i => c.validators.getD i defaultValidator),
           proposersBlockNum := blockNum }

theorem refreshProposers_subset (randStream : Nat → Nat → Nat) (c : Council)
    (seed blockNum : Nat) :
    proposersSubset (refreshProposers randStream c seed blockNum) := by
  intro v hv
  simp only [refreshProposers] at hv ⊢
  obtain ⟨i, hi, rfl⟩ := List.mem_map.mp hv
  have hperm := shuffleList_perm (randStream seed) (candidateIdx c.validators).length
    (candidateIdx c.validators) (le_refl _)
  have hi' : i ∈ candidateIdx c.validators := hperm.mem_iff.mp hi
  have hilt : i < c.validators.length := candidateIdx_lt c.validators i hi'
  rw [List.getD_eq_getElem _ _ hilt]
  exact List.getElem_mem hilt

def skipRefreshMsg : String := "skip refreshing proposers due to no staking info"

/-- `Refresh` (weighted.go:566-611).  `getStakingInfo` stands for the
external `reward.GetStakingInfo` feed; the 15-nibble seed parse cannot fail
(see `seedOf`), so its error branch is dead. -/
def refresh (randStream : Nat → Nat → Nat) (calcGini : List ℚ → ℚ)
    (compress : ℚ → ℚ → ℚ) (getStakingInfo : Nat → Option StakingInfo)
    (c : Council) (hash : Nat) (blockNum : Nat) : Council × Option String :=
  if c.proposersBlockNum = blockNum then (c, none)
  else if c.validators.length = 0 then (c, some "No validator")
  else
    let seed := seedOf hash
    match getStakingInfo (blockNum + 1) with
    | none => ({ c with stakingInfo := none }, some skipRefreshMsg)
    | some si =>
      let pairs := getStakingAmountsOfValidators c.validators si
      let res := calcTotalAmount calcGini compress pairs si
      let validators' := calcWeight res.1 res.2.2
      (refreshProposers randStream
        { c with validators := validators', stakingInfo := some res.2.1 }
        seed blockNum, none)

/-- A one-validator council whose proposer sequence is that validator. -/
def c3ex : Council :=
  { subSize := 1
    validators := [mkVal 1]
    proposer := some (mkVal 1)
    proposers := [mkVal 1]
    proposersBlockNum := 0
    stakingInfo := none
    blockNum := 0 }

/-- Claim C3 (counterexample): the membership invariant holds on `c3ex`,
but `replaceValidators` overwrites the validator list without touching
`proposers`, leaving a proposer entry that is no longer a member. -/
theorem replaceValidators_breaks_subset :
    proposersSubset c3ex ∧ ¬ proposersSubset (replaceValidators c3ex [mkVal 2]).1 := by
  decide

/-- Claim C3 (amended): the invariant "every element of `proposers` is a
member of `validators`" is preserved by `addValidator`, `removeValidator`
and `refresh` (in every branch of the latter); `replaceValidators` does NOT
preserve it, since it overwrites the validator list and leaves `proposers`
untouched. -/
theorem membership_invariant_preserved (c : Council) (a b : Address)
    (randStream : Nat → Nat → Nat) (calcGini : List ℚ → ℚ) (compress : ℚ → ℚ → ℚ)
    (getStakingInfo : Nat → Option StakingInfo) (hash blockNum : Nat)
    (h : proposersSubset c) :
    proposersSubset (addValidator c a).1 ∧
    proposersSubset (removeValidator c b).1 ∧
    proposersSubset
      (refresh randStream calcGini compress getStakingInfo c hash blockNum).1 := by
  refine ⟨?_, ?_, ?_⟩
  · rw [addValidator]
    by_cases hdup : c.validators.any (fun v => v.address = a)
    · rw [if_pos hdup]
      exact h
    · rw [if_neg hdup]
      intro v hv
      have hmem : v ∈ c.validators := h v hv
      show v ∈ sortValidators (c.validators ++ [⟨a, 0, 1000, 0⟩])
      rw [sortValidators]
      exact (List.perm_insertionSort _ _).mem_iff.mpr (List.mem_append_left _ hmem)
  · rw [removeValidator]
    rcases hrm : removeFirstByAddr c.validators b with _ | vs
    · exact h
    · intro v hv
      obtain ⟨hv', hvb⟩ := List.mem_filter.mp hv
      show v ∈ vs
      exact removeFirstByAddr_mem hrm v (h v hv') (by simpa using hvb)
  · rw [refresh]
    by_cases h1 : c.proposersBlockNum = blockNum
    · rw [if_pos h1]
      exact h
    · rw [if_neg h1]
      by_cases h2 : c.validators.length = 0
      · rw [if_pos h2]
        exact h
      · rw [if_neg h2]
        rcases hsi : getStakingInfo (blockNum + 1) with _ | si
        · exact h
        · exact refreshProposers_subset _ _ _ _

/-- Witness for the amended C3 theorem on `c3ex`. -/
theorem membership_invariant_preserved_witness :
    proposersSubset (addValidator c3ex 5).1 ∧
    proposersSubset (removeValidator c3ex 1).1 ∧
    proposersSubset
      (refresh (fun _ _ => 0) (fun _ => 0) (fun q _ => q) (fun _ => none) c3ex 7 3).1 :=
  membership_invariant_preserved c3ex 5 1 (fun _ _ => 0) (fun _ => 0) (fun q _ => q)
    (fun _ => none) 7 3 (by decide)

/-- Claim C6: when the update interval is due (`proposersBlockNum ≠
blockNum`), validators exist, and the staking feed has nothing for
`blockNum + 1`, `refresh` surfaces the "skip refreshing proposers" error
and leaves `proposers` and `proposersBlockNum` exactly as they were. -/
theorem refresh_skip_preserves_proposers (randStream : Nat → Nat → Nat)
    (calcGini : List ℚ → ℚ) (compress : ℚ → ℚ → ℚ)
    (getStakingInfo : Nat → Option StakingInfo) (c : Council) (hash blockNum : Nat)
    (h1 : c.proposersBlockNum ≠ blockNum) (h2 : c.validators.length ≠ 0)
    (h3 : getStakingInfo (blockNum + 1) = none) :
    (refresh randStream calcGini compress getStakingInfo c hash blockNum).1.proposers
        = c.proposers ∧
    (refresh randStream calcGini compress getStakingInfo c hash blockNum).1.proposersBlockNum
        = c.proposersBlockNum ∧
    (refresh randStream calcGini compress getStakingInfo c hash blockNum).2
        = some skipRefreshMsg := by
  have hres : refresh randStream calcGini compress getStakingInfo c hash blockNum =
      ({ c with stakingInfo := none }, some skipRefreshMsg) := by
    rw [refresh, if_neg h1, if_neg h2, h3]
  rw [hres]
  exact ⟨rfl, rfl, rfl⟩

/-- Witness for the C6 theorem on `c3ex` at block 1 with an empty feed. -/
theorem refresh_skip_preserves_proposers_witness :
    (refresh (fun _ _ => 0) (fun _ => 0) (fun q _ => q) (fun _ => none) c3ex 7 1).1.proposers
        = c3ex.proposers ∧
    (refresh (fun _ _ => 0) (fun _ => 0) (fun q _ => q) (fun _ => none) c3ex 7 1).1.proposersBlockNum
        = c3ex.proposersBlockNum ∧
    (refresh (fun _ _ => 0) (fun _ => 0) (fun q _ => q) (fun _ => none) c3ex 7 1).2
        = some skipRefreshMsg :=
  refresh_skip_preserves_proposers (fun _ _ => 0) (fun _ => 0) (fun q _ => q)
    (fun _ => none) c3ex 7 1 (by decide) (by decide) rfl

/-! ### Weight assignment (claim C4) -/

def c4pairs : List (Validator × ℚ) := [(mkVal 1, 0), (mkVal 2, 100)]

/-- Claim C4 (counterexample): with stakes `[0, 100]` and total `100 > 0`,
`calcWeight` assigns weight `1` to the zero-stake validator — not `0` as
claimed: `round(0*100/100) = 0` trips the `weight <= 0` floor, exactly as
the code's own comment says ("who holds zero or small stake"). -/
theorem calcWeight_zero_stake_gets_one :
    (calcWeight c4pairs 100).map Validator.weight = [1, 100] ∧
    (calcWeight c4pairs 100).map Validator.weight ≠ [0, 100] := by
  have h1 : (calcWeight c4pairs 100).map Validator.weight = [1, 100] := by
    rw [calcWeight, if_pos (by norm_num : (0:ℚ) < 100)]
    simp only [c4pairs, mkVal, List.map_cons, List.map_nil]
    norm_num [goRound]
    rfl
  refine ⟨h1, ?_⟩
  intro hcontra
  rw [h1] at hcontra
  simp at hcontra

/-- Claim C4 (amended): after weight assignment with positive total
staking, every validator's weight is `round(stake * 100 / total)` floored
at 1, the floor applying to zero-stake validators as well (every weight
that rounds to 0 becomes 1). -/
theorem calcWeight_formula (pairs : List (Validator × ℚ)) (total : ℚ)
    (h : 0 < total) :
    (calcWeight pairs total).map Validator.weight =
      pairs.map (fun p => max 1 (goRound (p.2 * 100 / total)).toNat) := by
  rw [calcWeight, if_pos h, List.map_map]
  apply List.map_congr_left
  intro p _
  simp only [Function.comp_apply]
  by_cases h0 : (goRound (p.2 * 100 / total)).toNat = 0
  · simp [h0]
  · simp only [h0, if_false]
    omega

/-- Witness for the amended C4 theorem on `c4pairs`. -/
theorem calcWeight_formula_witness :
    (calcWeight c4pairs 100).map Validator.weight =
      c4pairs.map (fun p => max 1 (goRound (p.2 * 100 / 100)).toNat) :=
  calcWeight_formula c4pairs 100 (by norm_num)

/-! ### Proposer recovery (weighted.go:112-132)

For each address the Go loop looks the validator up, appends the result —
`nil` when the lookup failed — and then unconditionally evaluates
`val.Address().String()` for a trace log.  On an unknown address `val` is a
nil interface and that call panics, so the loop dies at the first unknown
address; `none` models that panic. -/

def recoverProposers (c : Council) : List Address → Option (List Validator)
  | [] => some []
  | a :: rest =>
    match getByAddress c.validators a with
    | none => none
    | some (_, v) => (recoverProposers c rest).map (v :: ·)

def recoverWeightedCouncilProposer (c : Council) (proposerAddrs : List Address) :
    Option Council :=
  (recoverProposers c proposerAddrs).map (fun ps => { c with proposers := ps })

/-- Claim C8 (counterexample): address `2` is not a member of `c3ex`, and
`RecoverWeightedCouncilProposer` does not complete on it — after appending
the nil handle the loop dereferences it in the trace call and panics
(modelled as `none`); no proposer sequence survives. -/
theorem recover_unknown_address_crashes :
    getByAddress c3ex.validators 2 = none ∧
    recoverWeightedCouncilProposer c3ex [2] = none := by
  exact ⟨rfl, rfl⟩

/-- Claim C8 (amended): `recoverWeightedCouncilProposer` completes exactly
when every given address belongs to the validator list; an address that is
not a member makes it append a nil validator handle and then crash
dereferencing that handle in the very same iteration. -/
theorem recoverWeightedCouncilProposer_completes (c : Council) (addrs : List Address) :
    (recoverWeightedCouncilProposer c addrs).isSome ↔
      ∀ a ∈ addrs, (getByAddress c.validators a).isSome := by
  rw [recoverWeightedCouncilProposer, Option.isSome_map']
  induction addrs with
  | nil => simp [recoverProposers]
  | cons a rest ih =>
    rw [recoverProposers]
    rcases hg : getByAddress c.validators a with _ | p
    · simp [hg]
    · simp only [Option.isSome_map']
      rw [ih]
      simp [hg]

/-! ## State object (blockchain/state/state_object.go)

Storage maps (`type Storage map[common.Hash]common.Hash`) are association
lists of 256-bit keys and values; `Storage.Copy` copies entry by entry and
therefore yields an equal map, which under value semantics is the list
itself.  The enclosing `StateDB` appears only through its journal and the
account-storage trie, which is modelled as a total function `Nat → Nat`
(the zero hash encodes an absent entry, matching `value.SetBytes` of an
empty read). -/

/-- Journal entry kinds touched by the balance and storage paths
(journal.go of the state package). -/
inductive JournalEntry where
  | touchChange (account : Address)
  | balanceChange (account : Address) (prev : Int)
  | nonceChange (account : Address) (prev : Nat)
  | storageChange (account : Address) (key prev : Nat)
deriving DecidableEq, Repr

/-- The journal with its entry list and the dirty-address set. -/
structure Journal where
  entries : List JournalEntry
  dirties : List Address
deriving DecidableEq, Repr

/-- Modelled from the spec: `account.Account` lives outside the given
sources; it carries balance is `ℤ` (`big.Int`), nonce, and whether the code
hash is the empty-code hash.  EIP-158 emptiness is nonce 0, balance 0 and
empty code. -/
structure Account where
  nonce : Nat
  balance : Int
  codeHashEmpty : Bool
deriving DecidableEq, Repr

/-- Modelled from the spec: `account.Empty()` — EIP-158-style empty
account. -/
def Account.Empty (a : Account) : Bool :=
  a.nonce = 0 && a.balance = 0 && a.codeHashEmpty

/-- `stateObject` (state_object.go:75-102), with the fields the claims
touch.  `storageTrie` is the lazily opened storage trie. -/
structure StateObject where
  address : Address
  account : Account
  storageTrie : Option (Nat → Nat)
  code : Option (List Nat)
  cachedStorage : List (Nat × Nat)
  dirtyStorage : List (Nat × Nat)
  dirtyCode : Bool
  suicided : Bool
  deleted : Bool

/-- The ripemd precompile address `0x3` (the `ripemd` quirk at
state_object.go:148-152). -/
def ripemdAddr : Address := 3

/-- `touch` (state_object.go:144-153): journal a `touchChange`; for the
ripemd address additionally mark the address dirty. -/
def touch (so : StateObject) (j : Journal) : Journal :=
  let j' := { j with entries := j.entries ++ [JournalEntry.touchChange so.address] }
  if so.address = ripemdAddr then { j' with dirties := j'.dirties ++ [so.address] }
  else j'

/-- `SetBalance` (state_object.go:323-333): journal the previous balance,
then overwrite. -/
def setBalance (so : StateObject) (j : Journal) (amount : Int) :
    StateObject × Journal :=
  ({ so with account := { so.account with balance := amount } },
   { j with entries :=
      j.entries ++ [JournalEntry.balanceChange so.address so.account.balance] })

/-- `AddBalance` (state_object.go:301-312): a zero amount short-circuits,
touching the account only when it is empty. -/
def addBalance (so : StateObject) (j : Journal) (amount : Int) :
    StateObject × Journal :=
  if amount = 0 then
    if so.account.Empty then (so, touch so j) else (so, j)
  else setBalance so j (so.account.balance + amount)

/-- `SubBalance` (state_object.go:316-321): a zero amount short-circuits
with no journal activity at all. -/
def subBalance (so : StateObject) (j : Journal) (amount : Int) :
    StateObject × Journal :=
  if amount = 0 then (so, j)
  else setBalance so j (so.account.balance - amount)

/-- First-match lookup in a storage association list. -/
def lookupStorage : List (Nat × Nat) → Nat → Option Nat
  | [], _ => none
  | (k, v) :: rest, key => if k = key then some v else lookupStorage rest key

/-- Map assignment `m[key] = value`. -/
def insertStorage : List (Nat × Nat) → Nat → Nat → List (Nat × Nat)
  | [], key, value => [(key, value)]
  | (k, v) :: rest, key, value =>
    if k = key then (k, value) :: rest else (k, v) :: insertStorage rest key value

/-- `getStorageTrie` (state_object.go:155-170): the already-opened trie, or
the trie the database opens for this account's storage root. -/
def getStorageTrie (db : Nat → Nat) (so : StateObject) : Nat → Nat :=
  match so.storageTrie with
  | some t => t
  | none => db

/-- `GetState` (state_object.go:173-193): serve from `cachedStorage`, else
read the storage trie (an absent entry decodes to the zero hash), cache the
value and return it. -/
def GetState (db : Nat → Nat) (so : StateObject) (key : Nat) : Nat × StateObject :=
  match lookupStorage so.cachedStorage key with
  | some value => (value, so)
  | none =>
    let value := getStorageTrie db so key
    (value, { so with cachedStorage := insertStorage so.cachedStorage key value })

/-- `deepCopy` (state_object.go:338-350).  `newObject` starts with empty
caches; the copy then receives `self.dirtyStorage.Copy()` as BOTH its
`dirtyStorage` and its `cachedStorage` (line 345 copies from
`dirtyStorage`, not from `cachedStorage`). -/
def deepCopy (so : StateObject) : StateObject :=
  { address := so.address
    account := so.account
    storageTrie := so.storageTrie
    code := so.code
    dirtyStorage := so.dirtyStorage
    cachedStorage := so.dirtyStorage
    dirtyCode := so.dirtyCode
    suicided := so.suicided
    deleted := so.deleted }

/-- Claim C9 (amended): `addBalance 0` and `subBalance 0` short-circuit —
the state object (hence the balance) is unchanged and no `balanceChange`
entry is journaled — but only `addBalance` touches, and only when the
account is empty; `subBalance 0` performs no journal activity at all. -/
theorem zero_balance_short_circuit (so : StateObject) (j : Journal) :
    addBalance so j 0 = (so, if so.account.Empty then touch so j else j) ∧
    subBalance so j 0 = (so, j) := by
  constructor
  · rw [addBalance, if_pos rfl]
    by_cases he : so.account.Empty
    · rw [if_pos he, if_pos he]
    · rw [if_neg he, if_neg he]
  · rw [subBalance, if_pos rfl]

/-- An empty-account state object over the zero address. -/
def so9 : StateObject :=
  { address := 1
    account := { nonce := 0, balance := 0, codeHashEmpty := true }
    storageTrie := none
    code := none
    cachedStorage := []
    dirtyStorage := []
    dirtyCode := false
    suicided := false
    deleted := false }

/-- Claim C9 (counterexample): on an EMPTY account `subBalance 0` appends
no journal entry whatsoever — in particular no touch — although the claim
says both zero-amount calls still touch the account. -/
theorem subBalance_zero_does_not_touch :
    so9.account.Empty = true ∧
    (subBalance so9 { entries := [], dirties := [] } 0).2.entries = [] ∧
    (subBalance so9 { entries := [], dirties := [] } 0).1.account.balance =
      so9.account.balance := by
  exact ⟨rfl, rfl, rfl⟩

/-- Claim C10: `deepCopy` gives the copy the source's `dirtyStorage` both
as its `dirtyStorage` and as its `cachedStorage`; a key present only in the
source's read cache (cached but not dirty) is absent from the copy's cache,
and the copy's next `GetState` for it goes back to the storage trie. -/
theorem deepCopy_cache_from_dirty (so : StateObject) (key : Nat)
    (_hcached : (lookupStorage so.cachedStorage key).isSome)
    (hnotdirty : lookupStorage so.dirtyStorage key = none) :
    (deepCopy so).dirtyStorage = so.dirtyStorage ∧
    (deepCopy so).cachedStorage = so.dirtyStorage ∧
    lookupStorage (deepCopy so).cachedStorage key = none ∧
    ∀ db : Nat → Nat, (GetState db (deepCopy so) key).1 = getStorageTrie db so key := by
  refine ⟨rfl, rfl, hnotdirty, ?_⟩
  intro db
  have hnone : lookupStorage (deepCopy so).cachedStorage key = none := hnotdirty
  rw [GetState, hnone]
  rfl

/-- A state object with a key read into the cache but never written. -/
def so10 : StateObject :=
  { address := 2
    account := { nonce := 1, balance := 5, codeHashEmpty := true }
    storageTrie := none
    code := none
    cachedStorage := [(7, 9)]
    dirtyStorage := []
    dirtyCode := false
    suicided := false
    deleted := false }

/-- Witness for the C10 theorem on `so10` at key `7`. -/
theorem deepCopy_cache_from_dirty_witness :
    (deepCopy so10).dirtyStorage = so10.dirtyStorage ∧
    (deepCopy so10).cachedStorage = so10.dirtyStorage ∧
    lookupStorage (deepCopy so10).cachedStorage 7 = none ∧
    ∀ db : Nat → Nat, (GetState db (deepCopy so10) 7).1 = getStorageTrie db so10 7 :=
  deepCopy_cache_from_dirty so10 7 (by rw [so10]; rfl) rfl
